import Mathlib

/-!
Verification of the kernel-module dependency tool (`src/main.rs`, `src/live.rs`).

The development shallowly embeds the two source files:

* `src/main.rs`: the `ModuleBrief` data model, the symbol classifier inside
  `read_to_module`, the recursive `resolve_dependency_tree` topological
  resolver, and the discovery/printing pipeline `print_module_dependency_tree`.
  The Rust resolver recurses without any visited-set or depth bound, so it is
  embedded with an explicit fuel argument: `ResolveErr.outOfFuel` for every
  fuel value models non-termination of the source recursion, and
  `ResolveErr.panicNotFound` models the `Option::unwrap` panic on a missing
  target.  File-system and binary-parsing collaborators (`infer`, `object`,
  decompressors) are embedded at their boundary as an `FsFile` value carrying
  the sniffed mime type, the read/decode outcome, and the parsed symbol table.

* `src/live.rs`: the nom parser combinators used by `module_status_line` and
  `parse_module_listing` are embedded as functions `List Char → PRes α`, with
  a `panicked` result constructor modelling the Rust `panic!` on an unknown
  module state, and the `many0` combinator embedded with a fuel argument that
  is always sufficient because each parsed line consumes input.
-/

/-! ## Data model (src/main.rs lines 16-34) -/

structure ModuleBrief where
  name : String
  path : String
  provides_symbols : List String
  references_symbols : List String
deriving Repr, DecidableEq

inductive SymbolDirection where
  | Provides
  | References
deriving Repr, DecidableEq

structure SymbolBrief where
  name : String
  direction : SymbolDirection
deriving Repr, DecidableEq

/-! ## Dependency resolver (src/main.rs lines 36-86)

The Rust function recurses on the full module set with no termination
guard; the embedding adds a `fuel` parameter.  A result of
`.error .outOfFuel` for every fuel value corresponds to non-termination
(unbounded recursion / stack exhaustion) of the source program. -/

inductive ResolveErr where
  | panicNotFound (name : String)
  | outOfFuel
deriving Repr, DecidableEq

/-- The duplicate-removal loop of `resolve_dependency_tree`
(src/main.rs lines 74-83): keep the first occurrence of every name.
The `HashSet` of seen names is embedded as a list with membership test. -/
def dedupLoop : List ModuleBrief → List String → List ModuleBrief
  | [], _ => []
  | m :: rest, seen =>
    if m.name ∈ seen then dedupLoop rest seen
    else m :: dedupLoop rest (m.name :: seen)

/-- The `for referenced_module in referenced_modules` loop of
src/main.rs lines 62-67: resolve each referenced module in order and
append the results.  An error in any recursive call (a panic or
non-termination in the source) aborts the whole loop. -/
def resolve_each (f : ModuleBrief → Except ResolveErr (List ModuleBrief)) :
    List ModuleBrief → Except ResolveErr (List ModuleBrief)
  | [] => .ok []
  | r :: rest =>
    match f r with
    | .error e => .error e
    | .ok l =>
      match resolve_each f rest with
      | .error e => .error e
      | .ok ls => .ok (l ++ ls)

/-- `resolve_dependency_tree` (src/main.rs lines 36-86) with explicit fuel.
Mirrors the source exactly: find the first module whose name equals the
target (`unwrap` panic if absent), collect every module providing a symbol
the target references, recursively resolve each of them in working-set
order, push the target record, then deduplicate by name keeping first
occurrences. -/
def resolve_dependency_tree : Nat → List ModuleBrief → String → Except ResolveErr (List ModuleBrief)
  | 0, _, _ => .error .outOfFuel
  | fuel + 1, all_modules, for_module_name =>
    match all_modules.find? (fun m => m.name == for_module_name) with
    | none => .error (.panicNotFound for_module_name)
    | some for_module =>
      match resolve_each (fun r => resolve_dependency_tree fuel all_modules r.name)
          (all_modules.filter (fun m =>
            for_module.references_symbols.any (fun s => m.provides_symbols.contains s))) with
      | .error e => .error e
      | .ok pre => .ok (dedupLoop (pre ++ [for_module]) [])

/-! ## Symbol classifier (src/main.rs lines 107-124) -/

/-- Symbol kinds of the external object-file reader; the classifier only
distinguishes `unknown` from everything else. -/
inductive SymbolKind where
  | unknown
  | text
  | data
  | section
  | file
  | label
  | tls
  | common
deriving Repr, DecidableEq

/-- One entry of an already-parsed symbol table as exposed by the external
object parser: a name, a kind and the global-binding flag. -/
structure SymEntry where
  name : String
  kind : SymbolKind
  is_global : Bool
deriving Repr, DecidableEq

/-- The `filter_map` of src/main.rs lines 107-124: unknown-kind global
symbols become `References`, known-kind global symbols become `Provides`,
everything else is dropped. -/
def classified (tbl : List SymEntry) : List SymbolBrief :=
  tbl.filterMap (fun sym =>
    if sym.kind == .unknown && sym.is_global then
      some { name := sym.name, direction := .References }
    else if !(sym.kind == .unknown) && sym.is_global then
      some { name := sym.name, direction := .Provides }
    else
      none)

/-- The `provides_symbols` field construction of src/main.rs lines 129-133. -/
def provides_of (tbl : List SymEntry) : List String :=
  ((classified tbl).filter (fun s => s.direction == .Provides)).map SymbolBrief.name

/-- The `references_symbols` field construction of src/main.rs lines 134-138. -/
def references_of (tbl : List SymEntry) : List String :=
  ((classified tbl).filter (fun s => s.direction == .References)).map SymbolBrief.name

/-! ## Module loader and discovery (src/main.rs lines 88-172) -/

/-- A candidate file at the boundary of the file-system / binary-parsing
collaborators: its path, base name, the mime type sniffed by `infer`,
whether reading/decompressing its bytes succeeds, and the symbol table the
external object parser produces from those bytes (`none` = parse failure). -/
structure FsFile where
  path : String
  baseName : String
  mime : String
  readOk : Bool
  objectTable : Option (List SymEntry)
deriving Repr, DecidableEq

/-- Outcome of `read_to_module`: a Rust panic (process abort), an `Err`
returned to the caller, or a loaded record. -/
inductive LoadResult where
  | panicked (msg : String)
  | failed (msg : String)
  | loaded (m : ModuleBrief)
deriving Repr, DecidableEq

/-- `read_to_module` (src/main.rs lines 88-140).  Recognized raw-object and
compressed mime types lead to reading/decoding the bytes (an IO or decode
failure is an `Err`), then object parsing (failure is an `Err`), then the
symbol classifier; any other sniffed type hits the
`panic!("Unknown file type for ...")` branch of lines 100-102. -/
def read_to_module (f : FsFile) : LoadResult :=
  if f.mime == "application/x-executable" || f.mime == "application/vnd.microsoft.portable-executable"
      || f.mime == "application/zstd" || f.mime == "application/x-xz" then
    if f.readOk then
      match f.objectTable with
      | some tbl =>
          .loaded { name := f.baseName, path := f.path,
                    provides_symbols := provides_of tbl,
                    references_symbols := references_of tbl }
      | none => .failed "object parse error"
    else .failed "read error"
  else
    .panicked ("Unknown file type for " ++ f.path)

/-- The discovery `filter_map` of src/main.rs lines 145-160: a candidate
whose load returns `Err` is logged and skipped, a loaded candidate is kept,
and a panic inside `read_to_module` aborts the whole run. -/
def buildWorkingSet : List FsFile → Except String (List ModuleBrief)
  | [] => .ok []
  | f :: rest =>
    match read_to_module f with
    | .panicked msg => .error msg
    | .failed _ => buildWorkingSet rest
    | .loaded m =>
      match buildWorkingSet rest with
      | .error msg => .error msg
      | .ok ms => .ok (m :: ms)

inductive RunError where
  | panicMsg (msg : String)
  | resolveFailed (e : ResolveErr)
deriving Repr, DecidableEq

/-- `print_module_dependency_tree` (src/main.rs lines 142-172): load the
kernel image (`unwrap` panic on failure), discover the candidate modules,
resolve the target against modules-then-kernel, and print the path of every
resolved record whose name is not the literal `"vmlinux"`.  The returned
list holds the printed lines in order. -/
def print_module_dependency_tree (kernelFile : FsFile) (files : List FsFile)
    (target : String) (fuel : Nat) : Except RunError (List String) :=
  match read_to_module kernelFile with
  | .panicked msg => .error (.panicMsg msg)
  | .failed msg => .error (.panicMsg msg)
  | .loaded kernel_brief =>
    match buildWorkingSet files with
    | .error msg => .error (.panicMsg msg)
    | .ok kernel_modules =>
      match resolve_dependency_tree fuel (kernel_modules ++ [kernel_brief]) target with
      | .error e => .error (.resolveFailed e)
      | .ok tree =>
        .ok (((tree.filter (fun m => !(m.name == "vmlinux")))).map ModuleBrief.path)

/-! ## Status listing parser (src/live.rs)

The nom combinators are embedded as functions over `List Char`.  A result
is `ok` with the remaining input and a value, `err` for a recoverable nom
error, or `panicked` for a Rust `panic!` reached while parsing. -/

inductive PRes (α : Type) where
  | ok (rest : List Char) (val : α)
  | err
  | panicked (msg : String)
deriving Repr, DecidableEq

def StrP (α : Type) : Type := List Char → PRes α

/-- Sequencing of parsers (the `tuple` combinator threaded step by step):
errors and panics propagate, a success feeds the remaining input on. -/
def pseq {α β : Type} (p : StrP α) (f : α → StrP β) : StrP β := fun input =>
  match p input with
  | .ok rest a => f a rest
  | .err => .err
  | .panicked m => .panicked m

/-- ASCII alphabetic, as in nom's `alpha1`. -/
def isAlphaChar (c : Char) : Bool := ('a' ≤ c && c ≤ 'z') || ('A' ≤ c && c ≤ 'Z')

def isDigitChar (c : Char) : Bool := '0' ≤ c && c ≤ '9'

def isAlphaNumChar (c : Char) : Bool := isAlphaChar c || isDigitChar c

/-- nom `take_while1`: the maximal prefix satisfying `p`, failing when that
prefix is empty. -/
def takeWhile1 (p : Char → Bool) : StrP (List Char) := fun input =>
  match input.takeWhile p with
  | [] => .err
  | pre => .ok (input.drop pre.length) pre

/-- nom `alpha1`. -/
def alpha1 : StrP (List Char) := takeWhile1 isAlphaChar

/-- nom `alphanumeric1`. -/
def alphanumeric1 : StrP (List Char) := takeWhile1 isAlphaNumChar

/-- nom `alpha0`: maximal (possibly empty) alphabetic prefix, never fails. -/
def alpha0 : StrP (List Char) := fun input =>
  .ok (input.drop (input.takeWhile isAlphaChar).length) (input.takeWhile isAlphaChar)

/-- nom `tag`. -/
def tagP (t : List Char) : StrP (List Char) := fun input =>
  if input.take t.length = t then .ok (input.drop t.length) t else .err

/-- nom `alt` of two alternatives: first success wins, a panic stops. -/
def alt2 {α : Type} (p q : StrP α) : StrP α := fun input =>
  match p input with
  | .ok rest a => .ok rest a
  | .panicked m => .panicked m
  | .err => q input

/-- nom `many0_count` with fuel.  nom's `many0` rejects an inner parser
that succeeds without consuming; every inner parser used in the source
consumes on success, so the initial fuel `input.length + 1` never runs
out.  The fuel-exhaustion branch is therefore unreachable and returns
`err`. -/
def many0CountF (p : StrP (List Char)) : Nat → List Char → Nat → PRes Nat
  | 0, _, _ => .err
  | fuel + 1, input, acc =>
    match p input with
    | .err => .ok input acc
    | .panicked m => .panicked m
    | .ok rest _ =>
      if rest.length < input.length then many0CountF p fuel rest (acc + 1) else .err

def many0Count (p : StrP (List Char)) : StrP Nat := fun input =>
  many0CountF p (input.length + 1) input 0

/-- nom `recognize`: run the parser and return the consumed slice. -/
def recognizeP {α : Type} (p : StrP α) : StrP (List Char) := fun input =>
  match p input with
  | .ok rest _ => .ok rest (input.take (input.length - rest.length))
  | .err => .err
  | .panicked m => .panicked m

/-- nom `pair`. -/
def pairP {α β : Type} (p : StrP α) (q : StrP β) : StrP (α × β) := fun input =>
  match p input with
  | .ok rest a =>
    match q rest with
    | .ok rest2 b => .ok rest2 (a, b)
    | .err => .err
    | .panicked m => .panicked m
  | .err => .err
  | .panicked m => .panicked m

def digitsVal (ds : List Char) : Nat :=
  ds.foldl (fun acc c => acc * 10 + (c.toNat - '0'.toNat)) 0

/-- nom's decimal unsigned-integer parsers (`u64`, `u32`): the maximal
digit run, failing when it is empty or its value overflows the bound. -/
def nomUInt (bound : Nat) : StrP Nat := fun input =>
  match input.takeWhile isDigitChar with
  | [] => .err
  | ds =>
    if digitsVal ds < bound then .ok (input.drop ds.length) (digitsVal ds) else .err

def nomU64 : StrP Nat := nomUInt (2 ^ 64)

def nomU32 : StrP Nat := nomUInt (2 ^ 32)

/-- nom complete `not_line_ending`: consume up to the first `\r` or `\n`;
a `\r` not followed by `\n` is an error. -/
def notLineEnding : StrP (List Char) := fun input =>
  match input.drop (input.takeWhile (fun c => !(c == '\n' || c == '\r'))).length with
  | '\r' :: tail =>
    if tail.head? = some '\n' then
      .ok ('\r' :: tail) (input.takeWhile (fun c => !(c == '\n' || c == '\r')))
    else .err
  | rest => .ok rest (input.takeWhile (fun c => !(c == '\n' || c == '\r')))

/-- nom `line_ending`: `"\n"` or `"\r\n"`. -/
def line_ending : StrP (List Char) := fun input =>
  match input with
  | '\n' :: rest => .ok rest ['\n']
  | '\r' :: '\n' :: rest => .ok rest ['\r', '\n']
  | _ => .err

inductive ModuleState where
  | Live
  | Loading
  | Unloading
deriving Repr, DecidableEq

structure KernelModule where
  name : String
  size : Nat
  refs : Nat
  dependents : Option (List String)
  state : ModuleState
deriving Repr, DecidableEq

/-- Rust `str::split(',')` over the dependents slice. -/
def splitCommas : List Char → List (List Char)
  | [] => [[]]
  | c :: rest =>
    if c = ',' then [] :: splitCommas rest
    else
      match splitCommas rest with
      | g :: gs => (c :: g) :: gs
      | [] => [[c]]

/-- The `module_name` sub-parser of src/live.rs line 13. -/
def moduleNameP : StrP (List Char) :=
  recognizeP (pairP alpha1 (many0Count (alt2 alphanumeric1 (tagP ['_']))))

/-- The `space` sub-parser of src/live.rs line 14. -/
def spaceP : StrP (List Char) := takeWhile1 (fun c => c == ' ')

/-- The `dependents` sub-parser of src/live.rs lines 15-20. -/
def dependentsP : StrP (List Char) :=
  recognizeP (many0Count (alt2 alphanumeric1 (alt2 (tagP ['_']) (alt2 (tagP [',']) (tagP ['-'])))))

/-- `module_status_line` (src/live.rs lines 12-65): the field tuple, then
the construction of the `KernelModule` record.  The `state` match of lines
57-62 panics on any token other than `Live`, `Loading`, `Unloading`. -/
def module_status_line : StrP KernelModule :=
  pseq moduleNameP (fun mn =>
  pseq spaceP (fun _ =>
  pseq nomU64 (fun module_size =>
  pseq spaceP (fun _ =>
  pseq nomU32 (fun refs =>
  pseq spaceP (fun _ =>
  pseq dependentsP (fun deps =>
  pseq spaceP (fun _ =>
  pseq alpha1 (fun state =>
  pseq spaceP (fun _ =>
  pseq alphanumeric1 (fun _location =>
  pseq (pairP alpha0 notLineEnding) (fun _trailing => fun input =>
    let stateStr : String := String.mk state
    let mkMod : ModuleState → PRes KernelModule := fun st =>
      .ok input
        { name := String.mk mn
          size := module_size
          refs := refs
          dependents :=
            if deps = ['-'] then none
            else some (((splitCommas deps).map String.mk).filter (fun s => !(s == "")))
          state := st }
    if stateStr == "Live" then mkMod .Live
    else if stateStr == "Loading" then mkMod .Loading
    else if stateStr == "Unloading" then mkMod .Unloading
    else .panicked ("Unknown module state: " ++ stateStr)))))))))))))

/-- `terminated(module_status_line, line_ending)` from src/live.rs line 86. -/
def listing_line : StrP KernelModule :=
  pseq module_status_line (fun km =>
  pseq line_ending (fun _ => fun input => .ok input km))

/-- nom `many0` with fuel, collecting results.  As with `many0CountF`, an
inner success that consumes nothing is rejected and the fuel-exhaustion
branch is unreachable at fuel `input.length + 1`. -/
def many0F {α : Type} (p : StrP α) : Nat → List Char → PRes (List α)
  | 0, _ => .err
  | fuel + 1, input =>
    match p input with
    | .err => .ok input []
    | .panicked m => .panicked m
    | .ok rest a =>
      if rest.length < input.length then
        match many0F p fuel rest with
        | .ok r as => .ok r (a :: as)
        | .err => .err
        | .panicked m => .panicked m
      else .err

/-- The nom expression `many0(terminated(module_status_line, line_ending))`
applied to the input (src/live.rs line 86), before the `unwrap`. -/
def parse_module_listing_raw (data : List Char) : PRes (List KernelModule) :=
  many0F listing_line (data.length + 1) data

/-- Result of `parse_module_listing`: the Rust function returns a plain
`Vec` after `unwrap`, so the observable outcomes are a module list or a
panic (either a panic raised while parsing a line, or the `unwrap` panic
if the combinator itself returned `Err`). -/
inductive ListingResult where
  | ok (mods : List KernelModule)
  | panicked (msg : String)
deriving Repr, DecidableEq

/-- `parse_module_listing` (src/live.rs lines 85-92): run the `many0`
parser, discard the remaining input, and `unwrap` the combinator result. -/
def parse_module_listing (data : List Char) : ListingResult :=
  match parse_module_listing_raw data with
  | .ok _ mods => .ok mods
  | .err => .panicked "called Result::unwrap on an Err value"
  | .panicked m => .panicked m

/-! ## Concrete working sets used by the witnesses and counterexamples -/

/-- First-match lookup of a module name in the working set, as performed by
`resolve_dependency_tree` (src/main.rs lines 44-47). -/
def fm (all : List ModuleBrief) (n : String) : Option ModuleBrief :=
  all.find? (fun m => m.name == n)

/-- `Q` is the authoritative (first-match) record for its own name. -/
def isFM (all : List ModuleBrief) (Q : ModuleBrief) : Prop :=
  fm all Q.name = some Q

/-- `Q` provides at least one symbol that `M` references: the edge relation
of the symbol-satisfaction graph. -/
def providerOf (Q M : ModuleBrief) : Prop :=
  ∃ s, s ∈ M.references_symbols ∧ s ∈ Q.provides_symbols

/-- In `L`, every first-match provider of any member appears strictly
before that member. -/
def Ordered (all : List ModuleBrief) (L : List ModuleBrief) : Prop :=
  ∀ l1 M l2, L = l1 ++ M :: l2 → ∀ Q, isFM all Q → providerOf Q M → Q ∈ l1

/-- Like `Ordered`, but providers whose name is in `seen` are excused;
used to reason about `dedupLoop`. -/
def OrderedS (all : List ModuleBrief) (seen : List String) (L : List ModuleBrief) : Prop :=
  ∀ l1 M l2, L = l1 ++ M :: l2 → ∀ Q, isFM all Q → providerOf Q M → Q ∈ l1 ∨ Q.name ∈ seen

/-- Every member of `L` is the first-match record for its name. -/
def allFM (all : List ModuleBrief) (L : List ModuleBrief) : Prop :=
  ∀ M ∈ L, isFM all M

/-- The bundle of invariants of a successful `resolve_dependency_tree`
call: members are authoritative records, names are duplicate-free, the
order is dependency-correct, and the target's record is in the output. -/
def NodeInv (all : List ModuleBrief) (n : String) (L : List ModuleBrief) : Prop :=
  allFM all L ∧ (L.map ModuleBrief.name).Nodup ∧ Ordered all L ∧
    ∃ t, fm all n = some t ∧ t ∈ L

/-- Demo module: `a.ko` references a symbol `b.ko` provides. -/
def wA : ModuleBrief :=
  { name := "a.ko", path := "/m/a.ko", provides_symbols := [], references_symbols := ["sym_b"] }

def wB : ModuleBrief :=
  { name := "b.ko", path := "/m/b.ko", provides_symbols := ["sym_b"], references_symbols := [] }

/-- Two modules forming a reference cycle: each provides exactly the
symbol the other references. -/
def cycA : ModuleBrief :=
  { name := "A", path := "/m/A.ko", provides_symbols := ["sa"], references_symbols := ["sb"] }

def cycB : ModuleBrief :=
  { name := "B", path := "/m/B.ko", provides_symbols := ["sb"], references_symbols := ["sa"] }

/-- A module that provides and references the same symbol name. -/
def selfM : ModuleBrief :=
  { name := "m.ko", path := "/m/m.ko", provides_symbols := ["dup"], references_symbols := ["dup"] }

/-- Diamond: `dA` references symbols of `dB` and `dC`, both of which
reference the symbol `dD` provides. -/
def dA : ModuleBrief :=
  { name := "dA.ko", path := "/m/dA.ko", provides_symbols := ["pa"], references_symbols := ["pb", "pc"] }

def dB : ModuleBrief :=
  { name := "dB.ko", path := "/m/dB.ko", provides_symbols := ["pb"], references_symbols := ["pd"] }

def dC : ModuleBrief :=
  { name := "dC.ko", path := "/m/dC.ko", provides_symbols := ["pc"], references_symbols := ["pd"] }

def dD : ModuleBrief :=
  { name := "dD.ko", path := "/m/dD.ko", provides_symbols := ["pd"], references_symbols := [] }

/-- A kernel image at the default `/boot/vmlinuz` path: base name
`vmlinuz`, raw-object contents providing `printk`. -/
def kernelFileZ : FsFile :=
  { path := "/boot/vmlinuz", baseName := "vmlinuz", mime := "application/x-executable",
    readOk := true, objectTable := some [{ name := "printk", kind := .text, is_global := true }] }

/-- A well-formed candidate module file whose object references `printk`. -/
def tFile : FsFile :=
  { path := "/lib/modules/t.ko", baseName := "t.ko", mime := "application/x-executable",
    readOk := true, objectTable := some [{ name := "printk", kind := .unknown, is_global := true }] }

/-- A candidate whose sniffed container type is neither a recognized raw
object nor a recognized compressed wrapper. -/
def badFile : FsFile :=
  { path := "/lib/modules/strange.bin", baseName := "strange.bin", mime := "text/plain",
    readOk := true, objectTable := some [] }

/-- A zstd candidate whose bytes fail to read/decode: its load is an `Err`. -/
def unreadableFile : FsFile :=
  { path := "/lib/modules/u.ko.zst", baseName := "u.ko.zst", mime := "application/zstd",
    readOk := false, objectTable := none }

/-- The Module Record `read_to_module` builds from `kernelFileZ`. -/
def kernelBriefZ : ModuleBrief :=
  { name := "vmlinuz", path := "/boot/vmlinuz",
    provides_symbols := ["printk"], references_symbols := [] }

/-- The Module Record `read_to_module` builds from `tFile`. -/
def tBrief : ModuleBrief :=
  { name := "t.ko", path := "/lib/modules/t.ko",
    provides_symbols := [], references_symbols := ["printk"] }

/-! ## Basic facts about first-match lookup -/

theorem fm_name {all : List ModuleBrief} {n : String} {t : ModuleBrief}
    (h : fm all n = some t) : t.name = n := by
  simp only [fm] at h
  have hp := List.find?_some (p := fun m : ModuleBrief => m.name == n) (a := t) h
  simp only [beq_iff_eq] at hp
  exact hp

theorem fm_mem {all : List ModuleBrief} {n : String} {t : ModuleBrief}
    (h : fm all n = some t) : t ∈ all := by
  simp only [fm] at h
  exact List.mem_of_find?_eq_some h

theorem fm_self {all : List ModuleBrief} {n : String} {t : ModuleBrief}
    (h : fm all n = some t) : isFM all t := by
  have hn := fm_name h
  simpa only [isFM, hn] using h

theorem fm_inj {all : List ModuleBrief} {Q R : ModuleBrief}
    (hQ : isFM all Q) (hR : isFM all R) (h : Q.name = R.name) : Q = R := by
  simp only [isFM] at hQ hR
  rw [h, hR] at hQ
  exact (Option.some.inj hQ).symm

theorem mem_fm_of_nodup {all : List ModuleBrief}
    (hnd : (all.map ModuleBrief.name).Nodup) {A : ModuleBrief} (hA : A ∈ all) :
    fm all A.name = some A := by
  induction all with
  | nil => cases hA
  | cons h t ih =>
    simp only [List.map_cons, List.nodup_cons] at hnd
    rcases List.mem_cons.mp hA with rfl | hmem
    · simp [fm, List.find?]
    · have hne : ¬(h.name == A.name) = true := by
        intro hbeq
        exact hnd.1 (beq_iff_eq.mp hbeq ▸ List.mem_map_of_mem ModuleBrief.name hmem)
      simp only [fm, List.find?, hne]
      exact ih hnd.2 hmem

theorem isFM_of_mem_nodup {all : List ModuleBrief}
    (hnd : (all.map ModuleBrief.name).Nodup) {A : ModuleBrief} (hA : A ∈ all) :
    isFM all A :=
  mem_fm_of_nodup hnd hA

/-! ## Facts about the deduplication loop -/

theorem dedupLoop_subset {L : List ModuleBrief} {seen : List String} {x : ModuleBrief}
    (h : x ∈ dedupLoop L seen) : x ∈ L := by
  induction L generalizing seen with
  | nil => simp [dedupLoop] at h
  | cons m rest ih =>
    simp only [dedupLoop] at h
    by_cases hm : m.name ∈ seen
    · simp only [if_pos hm] at h
      exact List.mem_cons_of_mem m (ih h)
    · simp only [if_neg hm, List.mem_cons] at h
      rcases h with rfl | h
      · exact List.mem_cons_self x rest
      · exact List.mem_cons_of_mem m (ih h)

theorem dedupLoop_nodup (L : List ModuleBrief) (seen : List String) :
    ((dedupLoop L seen).map ModuleBrief.name).Nodup ∧
      ∀ x ∈ dedupLoop L seen, x.name ∉ seen := by
  induction L generalizing seen with
  | nil => simp [dedupLoop]
  | cons m rest ih =>
    simp only [dedupLoop]
    by_cases hm : m.name ∈ seen
    · simpa only [if_pos hm] using ih seen
    · simp only [if_neg hm, List.map_cons, List.nodup_cons]
      obtain ⟨hnd, hseen⟩ := ih (m.name :: seen)
      refine ⟨⟨?_, hnd⟩, ?_⟩
      · intro hmem
        obtain ⟨x, hx, hxname⟩ := List.mem_map.mp hmem
        exact hseen x hx (by rw [hxname]; exact List.mem_cons_self m.name seen)
      · intro x hx
        rcases List.mem_cons.mp hx with rfl | hx'
        · exact hm
        · intro hxs
          exact hseen x hx' (List.mem_cons_of_mem _ hxs)

theorem dedupLoop_mem {all : List ModuleBrief} {L : List ModuleBrief} {seen : List String}
    {Q : ModuleBrief} (hfmL : ∀ M ∈ L, isFM all M) (hQ : isFM all Q)
    (hQL : Q ∈ L) (hQs : Q.name ∉ seen) : Q ∈ dedupLoop L seen := by
  induction L generalizing seen with
  | nil => cases hQL
  | cons m rest ih =>
    simp only [dedupLoop]
    rcases List.mem_cons.mp hQL with rfl | hQrest
    · simp only [if_neg hQs]
      exact List.mem_cons_self Q _
    · by_cases hm : m.name ∈ seen
      · simp only [if_pos hm]
        exact ih (fun M hM => hfmL M (List.mem_cons_of_mem m hM)) hQrest hQs
      · simp only [if_neg hm]
        by_cases hname : Q.name = m.name
        · have : Q = m := fm_inj hQ (hfmL m (List.mem_cons_self m rest)) hname
          subst this
          exact List.mem_cons_self Q _
        · refine List.mem_cons_of_mem m (ih (fun M hM => hfmL M (List.mem_cons_of_mem m hM)) hQrest ?_)
          intro hmem
          rcases List.mem_cons.mp hmem with h | h
          · exact hname h
          · exact hQs h

/-! ## Facts about the topological-order invariant -/

theorem ordered_nil (all : List ModuleBrief) : Ordered all [] := by
  intro l1 M l2 heq
  exact absurd heq.symm (List.append_ne_nil_of_right_ne_nil l1 (List.cons_ne_nil M l2))

theorem ordered_append {all : List ModuleBrief} {LA LB : List ModuleBrief}
    (hA : Ordered all LA) (hB : Ordered all LB) : Ordered all (LA ++ LB) := by
  intro l1 M l2 heq Q hQ hprov
  rcases List.append_eq_append_iff.mp heq.symm with ⟨a', hLA, hb⟩ | ⟨c', hl1, hLB⟩
  · cases a' with
    | nil =>
      have hLB : LB = [] ++ M :: l2 := by simpa using hb.symm
      exact absurd (hB [] M l2 hLB Q hQ hprov) (List.not_mem_nil Q)
    | cons q a'' =>
      simp only [List.cons_append] at hb
      injection hb with h1 h2
      subst h1
      exact hA l1 M a'' hLA Q hQ hprov
  · subst hl1
    exact List.mem_append_right LA (hB c' M l2 hLB Q hQ hprov)

theorem ordered_snoc {all : List ModuleBrief} {pre : List ModuleBrief} {t : ModuleBrief}
    (hpre : Ordered all pre)
    (ht : ∀ Q, isFM all Q → providerOf Q t → Q ∈ pre) :
    Ordered all (pre ++ [t]) := by
  intro l1 M l2 heq Q hQ hprov
  rcases List.append_eq_append_iff.mp heq.symm with ⟨a', hpre', hb⟩ | ⟨c', hl1, hsing⟩
  · cases a' with
    | nil =>
      have hMt : M = t ∧ l2 = [] := by simpa using hb
      obtain ⟨rfl, _⟩ := hMt
      simp only [List.append_nil] at hpre'
      exact hpre' ▸ ht Q hQ hprov
    | cons q a'' =>
      simp only [List.cons_append] at hb
      injection hb with h1 h2
      subst h1
      exact hpre l1 M a'' hpre' Q hQ hprov
  · cases c' with
    | nil =>
      have htM : t = M ∧ l2 = [] := by simpa using hsing
      obtain ⟨rfl, _⟩ := htM
      simp only [List.append_nil] at hl1
      exact hl1 ▸ ht Q hQ hprov
    | cons x xs =>
      exfalso
      have hlen := congrArg List.length hsing
      simp [List.length_append] at hlen

theorem orderedS_nil_aux (all : List ModuleBrief) (seen : List String) :
    OrderedS all seen [] := by
  intro l1 M l2 heq
  exact absurd heq.symm (List.append_ne_nil_of_right_ne_nil l1 (List.cons_ne_nil M l2))

theorem orderedS_of_ordered {all : List ModuleBrief} {L : List ModuleBrief}
    (h : Ordered all L) : OrderedS all [] L := by
  intro l1 M l2 heq Q hQ hprov
  exact Or.inl (h l1 M l2 heq Q hQ hprov)

theorem ordered_of_orderedS {all : List ModuleBrief} {L : List ModuleBrief}
    (h : OrderedS all [] L) : Ordered all L := by
  intro l1 M l2 heq Q hQ hprov
  rcases h l1 M l2 heq Q hQ hprov with hmem | habs
  · exact hmem
  · exact absurd habs (List.not_mem_nil Q.name)

theorem orderedS_cons_tail {all : List ModuleBrief} {h : ModuleBrief}
    {rest : List ModuleBrief} {seen seen' : List String}
    (hord : OrderedS all seen (h :: rest)) (hsub : seen ⊆ seen')
    (hh : h.name ∈ seen') : OrderedS all seen' rest := by
  intro l1 M l2 heq Q hQ hprov
  rcases hord (h :: l1) M l2 (by rw [heq, List.cons_append]) Q hQ hprov with hmem | hseen
  · rcases List.mem_cons.mp hmem with rfl | hl1
    · exact Or.inr hh
    · exact Or.inl hl1
  · exact Or.inr (hsub hseen)

theorem dedupLoop_ordered {all : List ModuleBrief} :
    ∀ (L : List ModuleBrief) (seen : List String),
      (∀ M ∈ L, isFM all M) → OrderedS all seen L →
        OrderedS all seen (dedupLoop L seen) := by
  intro L
  induction L with
  | nil => intro seen _ _; simpa [dedupLoop] using orderedS_nil_aux all seen
  | cons h rest ih =>
    intro seen hfm hord
    simp only [dedupLoop]
    by_cases hm : h.name ∈ seen
    · simp only [if_pos hm]
      exact ih seen (fun M hM => hfm M (List.mem_cons_of_mem h hM))
        (orderedS_cons_tail hord (List.Subset.refl seen) hm)
    · simp only [if_neg hm]
      intro l1 M l2 heq Q hQ hprov
      cases l1 with
      | nil =>
        simp only [List.nil_append] at heq
        injection heq with h1 h2
        subst h1
        rcases hord [] h rest rfl Q hQ hprov with hmem | hseen
        · exact absurd hmem (List.not_mem_nil Q)
        · exact Or.inr hseen
      | cons x d1 =>
        simp only [List.cons_append] at heq
        injection heq with hx hD
        subst hx
        have hordD : OrderedS all (h.name :: seen) (dedupLoop rest (h.name :: seen)) :=
          ih (h.name :: seen) (fun M hM => hfm M (List.mem_cons_of_mem h hM))
            (orderedS_cons_tail hord (List.subset_cons_self h.name seen)
              (List.mem_cons_self h.name seen))
        rcases hordD d1 M l2 hD Q hQ hprov with hmem | hseen
        · exact Or.inl (List.mem_cons_of_mem h hmem)
        · rcases List.mem_cons.mp hseen with hqx | hqs
          · have hQh : Q = h := fm_inj hQ (hfm h (List.mem_cons_self h rest)) hqx
            exact Or.inl (hQh ▸ List.mem_cons_self h d1)
          · exact Or.inr hqs

theorem resolve_each_ok {f : ModuleBrief → Except ResolveErr (List ModuleBrief)}
    {rs : List ModuleBrief} {L : List ModuleBrief}
    (h : resolve_each f rs = .ok L) :
    ∀ r ∈ rs, ∃ lr, f r = .ok lr ∧ ∀ x ∈ lr, x ∈ L := by
  induction rs generalizing L with
  | nil => intro r hr; cases hr
  | cons r rest ih =>
    intro r' hr'
    simp only [resolve_each] at h
    cases hf : f r with
    | error e => rw [hf] at h; cases h
    | ok l =>
      rw [hf] at h
      cases hrest : resolve_each f rest with
      | error e => rw [hrest] at h; cases h
      | ok ls =>
        rw [hrest] at h
        have hL : l ++ ls = L := by injection h
        rcases List.mem_cons.mp hr' with rfl | hmem
        · exact ⟨l, hf, fun x hx => hL ▸ List.mem_append_left ls hx⟩
        · obtain ⟨lr, hflr, hsub⟩ := ih hrest r' hmem
          exact ⟨lr, hflr, fun x hx => hL ▸ List.mem_append_right l (hsub x hx)⟩

theorem resolve_each_inv (all : List ModuleBrief) (fuel : Nat)
    (IH : ∀ n L, resolve_dependency_tree fuel all n = .ok L → NodeInv all n L) :
    ∀ (rs : List ModuleBrief) (L : List ModuleBrief),
      resolve_each (fun r => resolve_dependency_tree fuel all r.name) rs = .ok L →
        allFM all L ∧ Ordered all L ∧
          ∀ r ∈ rs, ∃ t, fm all r.name = some t ∧ t ∈ L := by
  intro rs
  induction rs with
  | nil =>
    intro L h
    simp only [resolve_each] at h
    have hL : ([] : List ModuleBrief) = L := by injection h
    subst hL
    exact ⟨fun M hM => absurd hM (List.not_mem_nil M), ordered_nil all,
      fun r hr => absurd hr (List.not_mem_nil r)⟩
  | cons r rest ih =>
    intro L h
    simp only [resolve_each] at h
    cases hf : resolve_dependency_tree fuel all r.name with
    | error e => rw [hf] at h; cases h
    | ok l =>
      rw [hf] at h
      cases hrest : resolve_each (fun r => resolve_dependency_tree fuel all r.name) rest with
      | error e => rw [hrest] at h; cases h
      | ok ls =>
        rw [hrest] at h
        have hL : l ++ ls = L := by injection h
        subst hL
        obtain ⟨hfm_l, _, hord_l, t, hfmt, htl⟩ := IH r.name l hf
        obtain ⟨hfm_ls, hord_ls, hall⟩ := ih ls hrest
        refine ⟨?_, ordered_append hord_l hord_ls, ?_⟩
        · intro M hM
          rcases List.mem_append.mp hM with hM | hM
          · exact hfm_l M hM
          · exact hfm_ls M hM
        · intro r' hr'
          rcases List.mem_cons.mp hr' with rfl | hmem
          · exact ⟨t, hfmt, List.mem_append_left ls htl⟩
          · obtain ⟨t', hfmt', ht'⟩ := hall r' hmem
            exact ⟨t', hfmt', List.mem_append_right l ht'⟩

/-- Master invariant of the resolver: every successful call returns a
duplicate-free, dependency-ordered list of authoritative records that
contains the target's record. -/
theorem resolve_inv (fuel : Nat) :
    ∀ (all : List ModuleBrief) (n : String) (L : List ModuleBrief),
      resolve_dependency_tree fuel all n = .ok L → NodeInv all n L := by
  induction fuel with
  | zero =>
    intro all n L h
    simp only [resolve_dependency_tree] at h
    cases h
  | succ fuel ih =>
    intro all n L h
    simp only [resolve_dependency_tree] at h
    split at h
    · cases h
    · rename_i t hfind
      split at h
      · cases h
      · rename_i pre hpre
        have hL : dedupLoop (pre ++ [t]) [] = L := by injection h
        subst hL
        have hfmn : fm all n = some t := hfind
        have ht_isFM : isFM all t := fm_self hfmn
        obtain ⟨hfm_pre, hord_pre, hallref⟩ := resolve_each_inv all fuel (ih all) _ pre hpre
        have hclosure : ∀ Q, isFM all Q → providerOf Q t → Q ∈ pre := by
          intro Q hQ hprov
          obtain ⟨s, hs1, hs2⟩ := hprov
          have hQall : Q ∈ all := fm_mem hQ
          have hQfilter :
              Q ∈ all.filter (fun m =>
                t.references_symbols.any (fun s => m.provides_symbols.contains s)) := by
            refine List.mem_filter.mpr ⟨hQall, ?_⟩
            rw [List.any_eq_true]
            exact ⟨s, hs1, List.elem_iff.mpr hs2⟩
          obtain ⟨t', hfmt', ht'⟩ := hallref Q hQfilter
          have : t' = Q := by
            have hq := hQ
            simp only [isFM] at hq
            rw [hq] at hfmt'
            exact (Option.some.inj hfmt').symm
          exact this ▸ ht'
        have hfm_preT : ∀ M ∈ pre ++ [t], isFM all M := by
          intro M hM
          rcases List.mem_append.mp hM with hM | hM
          · exact hfm_pre M hM
          · rw [List.mem_singleton.mp hM]
            exact ht_isFM
        have hord_preT : Ordered all (pre ++ [t]) := ordered_snoc hord_pre hclosure
        refine ⟨?_, (dedupLoop_nodup _ _).1, ?_, t, hfmn, ?_⟩
        · intro M hM
          exact hfm_preT M (dedupLoop_subset hM)
        · exact ordered_of_orderedS
            (dedupLoop_ordered (pre ++ [t]) [] hfm_preT (orderedS_of_ordered hord_preT))
        · exact dedupLoop_mem hfm_preT ht_isFM
            (List.mem_append_right pre (List.mem_singleton_self t))
            (List.not_mem_nil t.name)

/-! ## Claims about the dependency resolver -/

/-- C1: for every working set and every target for which resolution
succeeds, the sequence returned by `resolve_dependency_tree` contains no
two records with the same name, and for every module `M` in the sequence,
every module in the sequence that provides at least one symbol `M`
references appears strictly before `M`. -/
theorem resolve_tree_topological (all : List ModuleBrief) (n : String) (fuel : Nat)
    (L : List ModuleBrief) (h : resolve_dependency_tree fuel all n = .ok L) :
    (L.map ModuleBrief.name).Nodup ∧
      ∀ l1 M l2, L = l1 ++ M :: l2 → ∀ Q, Q ∈ L →
        (∃ s, s ∈ M.references_symbols ∧ s ∈ Q.provides_symbols) → Q ∈ l1 := by
  obtain ⟨hfm, hnd, hord, _⟩ := resolve_inv fuel all n L h
  exact ⟨hnd, fun l1 M l2 heq Q hQ hprov => hord l1 M l2 heq Q (hfm Q hQ) hprov⟩

theorem resolve_tree_topological_witness :
    (([wB, wA].map ModuleBrief.name).Nodup) ∧
      ∀ l1 M l2, [wB, wA] = l1 ++ M :: l2 → ∀ Q, Q ∈ [wB, wA] →
        (∃ s, s ∈ M.references_symbols ∧ s ∈ Q.provides_symbols) → Q ∈ l1 :=
  resolve_tree_topological [wA, wB] "a.ko" 3 [wB, wA] (by rfl)

/-- One unfolding step of the resolver when the target's referenced-module
list is the single module `r` and resolving `r` runs forever. -/
theorem resolve_step_single {all : List ModuleBrief} {n : String} {t r : ModuleBrief}
    {fuel : Nat}
    (hfind : all.find? (fun m => m.name == n) = some t)
    (hfilter : all.filter (fun m =>
      t.references_symbols.any (fun s => m.provides_symbols.contains s)) = [r])
    (hr : resolve_dependency_tree fuel all r.name = .error .outOfFuel) :
    resolve_dependency_tree (fuel + 1) all n = .error .outOfFuel := by
  have h0 : resolve_dependency_tree (fuel + 1) all n =
      match resolve_each (fun r => resolve_dependency_tree fuel all r.name)
        (all.filter (fun m =>
          t.references_symbols.any (fun s => m.provides_symbols.contains s))) with
      | .error e => .error e
      | .ok pre => .ok (dedupLoop (pre ++ [t]) []) := by
    simp only [resolve_dependency_tree, hfind]
  rw [h0, hfilter]
  have h1 : resolve_each (fun r => resolve_dependency_tree fuel all r.name) [r] =
      .error .outOfFuel := by
    simp only [resolve_each, hr]
  rw [h1]

/-- C2: on the two-module cycle (`cycA` references the symbol only `cycB`
provides and vice versa) the source recursion never terminates: for every
fuel bound the embedded resolver still reports fuel exhaustion, for the
cycle's entry point and for its partner alike.  The code reaches no
`CycleDetected` error because none exists in it. -/
theorem cycle_resolution_diverges :
    ∀ fuel, resolve_dependency_tree fuel [cycA, cycB] "A" = .error .outOfFuel := by
  have both : ∀ fuel,
      resolve_dependency_tree fuel [cycA, cycB] "A" = .error .outOfFuel ∧
        resolve_dependency_tree fuel [cycA, cycB] "B" = .error .outOfFuel := by
    intro fuel
    induction fuel with
    | zero => exact ⟨rfl, rfl⟩
    | succ fuel ih =>
      exact ⟨resolve_step_single (t := cycA) (r := cycB) rfl rfl ih.2,
        resolve_step_single (t := cycB) (r := cycA) rfl rfl ih.1⟩
  exact fun fuel => (both fuel).1

/-- C3: for every working set and every target name that matches no
record, the source `find(..).unwrap()` panics and aborts the process; the
embedding returns the panic marker `panicNotFound`, never a recoverable
value. -/
theorem missing_target_panics (all : List ModuleBrief) (n : String) (fuel : Nat)
    (h : ∀ m ∈ all, m.name ≠ n) :
    resolve_dependency_tree (fuel + 1) all n = .error (.panicNotFound n) := by
  have hfind : all.find? (fun m => m.name == n) = none :=
    List.find?_eq_none.mpr (fun m hm => by simp [h m hm])
  simp only [resolve_dependency_tree, hfind]

theorem missing_target_panics_witness :
    resolve_dependency_tree 4 [wA, wB] "zz.ko" = .error (.panicNotFound "zz.ko") :=
  missing_target_panics [wA, wB] "zz.ko" 3 (by decide)

/-- C4: in every duplicate-name-free working set containing a diamond
(`A` references symbols provided by `B` and by `C`, and both `B` and `C`
reference a symbol provided by `D`), a successful resolution of `A`
contains exactly one record named after `D`. -/
theorem diamond_dedup (all : List ModuleBrief) (fuel : Nat) (L : List ModuleBrief)
    (A B C D : ModuleBrief) (sab sac sbd scd : String)
    (hnodup : (all.map ModuleBrief.name).Nodup)
    (hA : A ∈ all) (hB : B ∈ all) (hC : C ∈ all) (hD : D ∈ all)
    (h1 : sab ∈ A.references_symbols) (h2 : sab ∈ B.provides_symbols)
    (h3 : sac ∈ A.references_symbols) (h4 : sac ∈ C.provides_symbols)
    (h5 : sbd ∈ B.references_symbols) (h6 : sbd ∈ D.provides_symbols)
    (h7 : scd ∈ C.references_symbols) (h8 : scd ∈ D.provides_symbols)
    (hres : resolve_dependency_tree fuel all A.name = .ok L) :
    (L.map ModuleBrief.name).count D.name = 1 := by
  obtain ⟨hfm, hnd, hord, t, hfmt, htL⟩ := resolve_inv fuel all A.name L hres
  have hfmA := mem_fm_of_nodup hnodup hA
  rw [hfmA] at hfmt
  have hAt : A = t := Option.some.inj hfmt
  have hAL : A ∈ L := hAt ▸ htL
  have hBL : B ∈ L := by
    obtain ⟨s1, s2, hsplit⟩ := List.append_of_mem hAL
    have hin := hord s1 A s2 hsplit B (isFM_of_mem_nodup hnodup hB) ⟨sab, h1, h2⟩
    rw [hsplit]
    exact List.mem_append_left _ hin
  have hDL : D ∈ L := by
    obtain ⟨s1, s2, hsplit⟩ := List.append_of_mem hBL
    have hin := hord s1 B s2 hsplit D (isFM_of_mem_nodup hnodup hD) ⟨sbd, h5, h6⟩
    rw [hsplit]
    exact List.mem_append_left _ hin
  exact List.count_eq_one_of_mem hnd (List.mem_map_of_mem ModuleBrief.name hDL)

theorem diamond_dedup_witness :
    (([dD, dB, dC, dA].map ModuleBrief.name).count dD.name) = 1 :=
  diamond_dedup [dA, dB, dC, dD] 5 [dD, dB, dC, dA] dA dB dC dD "pb" "pc" "pd" "pd"
    (by decide) (by decide) (by decide) (by decide) (by decide)
    (by decide) (by decide) (by decide) (by decide)
    (by decide) (by decide) (by decide) (by decide) (by rfl)

/-- C5: a module whose `provides_symbols` and `references_symbols` share a
symbol name is treated by the source as one of its own dependencies: the
recursion descends into the module on its own behalf and never terminates
(fuel exhaustion at every bound), instead of skipping the self-edge. -/
theorem self_satisfaction_diverges :
    ∀ fuel, resolve_dependency_tree fuel [selfM] "m.ko" = .error .outOfFuel := by
  intro fuel
  induction fuel with
  | zero => rfl
  | succ fuel ih => exact resolve_step_single (t := selfM) (r := selfM) rfl rfl ih

/-! ## Claim about the symbol classifier -/

/-- C6: the classifier sends every unknown-kind global symbol to the
`References` list and every known-kind global symbol to the `Provides`
list, drops non-global symbols entirely, and both output lists preserve
symbol-table order and duplicates: each equals the filtered symbol table
mapped to names. -/
theorem classifier_partition (tbl : List SymEntry) :
    references_of tbl =
        (tbl.filter (fun s => s.kind == .unknown && s.is_global)).map SymEntry.name ∧
      provides_of tbl =
        (tbl.filter (fun s => !(s.kind == .unknown) && s.is_global)).map SymEntry.name := by
  induction tbl with
  | nil => exact ⟨rfl, rfl⟩
  | cons e rest ih =>
    obtain ⟨ih1, ih2⟩ := ih
    by_cases hk : e.kind = SymbolKind.unknown <;> by_cases hg : e.is_global = true <;>
      simp [references_of, provides_of, classified, List.filterMap_cons, List.filter_cons,
        hk, hg] at ih1 ih2 ⊢ <;>
      exact ⟨ih1, ih2⟩

/-! ## Claims about discovery and the printing pipeline -/

/-- C7 counterexample: a candidate whose sniffed container type is
unrecognized is not skipped — its `panic!` aborts the whole run, and the
resolution of a target that does not depend on it (which succeeds when the
foreign file is absent) never happens. -/
theorem unknown_container_aborts :
    print_module_dependency_tree kernelFileZ [badFile, tFile] "t.ko" 5 =
        .error (.panicMsg "Unknown file type for /lib/modules/strange.bin") ∧
      print_module_dependency_tree kernelFileZ [tFile] "t.ko" 5 =
        .ok ["/boot/vmlinuz", "/lib/modules/t.ko"] :=
  ⟨rfl, rfl⟩

theorem buildWorkingSet_skips_failed {f : FsFile} {e : String}
    (h : read_to_module f = .failed e) :
    ∀ l1 l2 : List FsFile, buildWorkingSet (l1 ++ f :: l2) = buildWorkingSet (l1 ++ l2) := by
  intro l1
  induction l1 with
  | nil =>
    intro l2
    simp only [List.nil_append, buildWorkingSet, h]
  | cons g l1 ih =>
    intro l2
    simp only [List.cons_append, buildWorkingSet]
    have ihc : buildWorkingSet (l1.append (f :: l2)) = buildWorkingSet (l1.append l2) := ih l2
    rw [ihc]

/-- C7 amended: a candidate whose load fails with a reported error
(unreadable or undecodable bytes, or an object-parse failure) is logged
and skipped: the whole `modinspect` pipeline behaves exactly as if the
candidate were absent, so resolution of any target not depending on it is
unaffected.  A candidate of unrecognized container type instead panics
and aborts the run (see the counterexample). -/
theorem failed_candidate_skipped (k f : FsFile) (l1 l2 : List FsFile)
    (target : String) (fuel : Nat) (e : String)
    (h : read_to_module f = .failed e) :
    print_module_dependency_tree k (l1 ++ f :: l2) target fuel =
      print_module_dependency_tree k (l1 ++ l2) target fuel := by
  simp only [print_module_dependency_tree, buildWorkingSet_skips_failed h l1 l2]

theorem failed_candidate_skipped_witness :
    print_module_dependency_tree kernelFileZ [unreadableFile, tFile] "t.ko" 5 =
      print_module_dependency_tree kernelFileZ [tFile] "t.ko" 5 :=
  failed_candidate_skipped kernelFileZ unreadableFile [] [tFile] "t.ko" 5 "read error" rfl

/-- C8 counterexample: with the kernel image at its default path
`/boot/vmlinuz`, the record built from the kernel path is named
`vmlinuz`, the output filter only suppresses the literal name `vmlinux`,
and the kernel image's path is printed as the first output line. -/
theorem kernel_entry_printed :
    print_module_dependency_tree kernelFileZ [tFile] "t.ko" 5 =
        .ok ["/boot/vmlinuz", "/lib/modules/t.ko"] ∧
      kernelFileZ.path = "/boot/vmlinuz" :=
  ⟨rfl, rfl⟩

/-- C8 amended: the `modinspect` output prints one file path per line in
resolved order, suppressing exactly the records whose `name` equals the
literal `"vmlinux"`; in particular a resolved kernel record whose base
name differs from `"vmlinux"` has its path printed. -/
theorem print_suppresses_by_name (k : FsFile) (files : List FsFile)
    (target : String) (fuel : Nat) (kb : ModuleBrief)
    (ws tree : List ModuleBrief)
    (hk : read_to_module k = .loaded kb)
    (hw : buildWorkingSet files = .ok ws)
    (hr : resolve_dependency_tree fuel (ws ++ [kb]) target = .ok tree) :
    print_module_dependency_tree k files target fuel =
        .ok ((tree.filter (fun m => !(m.name == "vmlinux"))).map ModuleBrief.path) ∧
      (kb ∈ tree → ¬ kb.name = "vmlinux" →
        kb.path ∈ (tree.filter (fun m => !(m.name == "vmlinux"))).map ModuleBrief.path) := by
  constructor
  · simp only [print_module_dependency_tree, hk, hw, hr]
  · intro hmem hname
    exact List.mem_map_of_mem ModuleBrief.path (List.mem_filter.mpr ⟨hmem, by simp [hname]⟩)

theorem print_suppresses_by_name_witness :
    (print_module_dependency_tree kernelFileZ [tFile] "t.ko" 5 =
        .ok (([kernelBriefZ, tBrief].filter (fun m => !(m.name == "vmlinux"))).map ModuleBrief.path)) ∧
      (kernelBriefZ ∈ [kernelBriefZ, tBrief] → ¬ kernelBriefZ.name = "vmlinux" →
        kernelBriefZ.path ∈ ([kernelBriefZ, tBrief].filter (fun m => !(m.name == "vmlinux"))).map ModuleBrief.path) :=
  print_suppresses_by_name kernelFileZ [tFile] "t.ko" 5 kernelBriefZ [tBrief]
    [kernelBriefZ, tBrief] rfl rfl rfl

/-! ## Claims about the status listing parser -/

/-- C9: a status line whose state field is the alphabetic token `Active`
drives `module_status_line` into the `panic!` of src/live.rs line 61: the
process aborts with the panic message instead of returning a recoverable
parse error. -/
theorem unknown_state_panics :
    module_status_line ("ext4 1015808 1 - Active 0x0000000000000000".toList) =
      .panicked "Unknown module state: Active" := by
  decide

/-- A parser that never lengthens its input. -/
def Consumes {α : Type} (p : StrP α) : Prop :=
  ∀ input rest a, p input = .ok rest a → rest.length ≤ input.length

theorem consumes_pseq {α β : Type} {p : StrP α} {f : α → StrP β}
    (hp : Consumes p) (hf : ∀ a, Consumes (f a)) : Consumes (pseq p f) := by
  intro input rest b h
  simp only [pseq] at h
  cases hpi : p input with
  | ok r a => rw [hpi] at h; exact le_trans (hf a r rest b h) (hp input r a hpi)
  | err => rw [hpi] at h; cases h
  | panicked m => rw [hpi] at h; cases h

theorem consumes_takeWhile1 (p : Char → Bool) : Consumes (takeWhile1 p) := by
  intro input rest a h
  simp only [takeWhile1] at h
  cases htw : input.takeWhile p with
  | nil => rw [htw] at h; cases h
  | cons c cs =>
    rw [htw] at h
    injection h with h1 h2
    rw [← h1]
    simp [List.length_drop]

theorem consumes_alpha0 : Consumes alpha0 := by
  intro input rest a h
  simp only [alpha0] at h
  injection h with h1 h2
  rw [← h1]
  simp [List.length_drop]

theorem consumes_tagP (t : List Char) : Consumes (tagP t) := by
  intro input rest a h
  simp only [tagP] at h
  split at h
  · injection h with h1 h2
    rw [← h1]
    simp [List.length_drop]
  · cases h

theorem consumes_alt2 {α : Type} {p q : StrP α} (hp : Consumes p) (hq : Consumes q) :
    Consumes (alt2 p q) := by
  intro input rest a h
  simp only [alt2] at h
  split at h
  · rename_i r b heq
    injection h with h1 h2
    rw [← h1]
    exact hp input r b heq
  · cases h
  · rename_i heq
    exact hq input rest a h

theorem consumes_many0CountF (p : StrP (List Char)) :
    ∀ fuel input acc rest n, many0CountF p fuel input acc = .ok rest n →
      rest.length ≤ input.length := by
  intro fuel
  induction fuel with
  | zero => intro input acc rest n h; cases h
  | succ fuel ih =>
    intro input acc rest n h
    simp only [many0CountF] at h
    split at h
    · injection h with h1 h2
      rw [← h1]
    · cases h
    · rename_i r b heq
      split at h
      · rename_i hlt
        exact le_trans (ih r (acc + 1) rest n h) (le_of_lt hlt)
      · cases h

theorem consumes_many0Count (p : StrP (List Char)) : Consumes (many0Count p) := by
  intro input rest a h
  exact consumes_many0CountF p (input.length + 1) input 0 rest a h

theorem consumes_recognizeP {α : Type} {p : StrP α} (hp : Consumes p) :
    Consumes (recognizeP p) := by
  intro input rest a h
  simp only [recognizeP] at h
  split at h
  · rename_i r b heq
    injection h with h1 h2
    rw [← h1]
    exact hp input r b heq
  · cases h
  · cases h

theorem consumes_pairP {α β : Type} {p : StrP α} {q : StrP β}
    (hp : Consumes p) (hq : Consumes q) : Consumes (pairP p q) := by
  intro input rest c h
  simp only [pairP] at h
  split at h
  · rename_i r a heq
    split at h
    · rename_i r2 b heq2
      injection h with h1 h2
      rw [← h1]
      exact le_trans (hq r r2 b heq2) (hp input r a heq)
    · cases h
    · cases h
  · cases h
  · cases h

theorem consumes_nomUInt (bound : Nat) : Consumes (nomUInt bound) := by
  intro input rest a h
  simp only [nomUInt] at h
  split at h
  · cases h
  · split at h
    · injection h with h1 h2
      rw [← h1]
      simp [List.length_drop]
    · cases h

theorem consumes_notLineEnding : Consumes notLineEnding := by
  intro input rest a h
  simp only [notLineEnding] at h
  split at h
  · split at h
    · injection h with h1 h2
      rename_i tail heq _
      rw [← h1, ← heq]
      simp [List.length_drop]
    · cases h
  · injection h with h1 h2
    rw [← h1]
    simp [List.length_drop]

theorem consumes_alpha1 : Consumes alpha1 := consumes_takeWhile1 isAlphaChar

theorem consumes_alphanumeric1 : Consumes alphanumeric1 := consumes_takeWhile1 isAlphaNumChar

theorem consumes_spaceP : Consumes spaceP := consumes_takeWhile1 (fun c => c == ' ')

theorem consumes_moduleNameP : Consumes moduleNameP :=
  consumes_recognizeP (consumes_pairP consumes_alpha1 (consumes_many0Count _))

theorem consumes_dependentsP : Consumes dependentsP :=
  consumes_recognizeP (consumes_many0Count _)

theorem consumes_nomU64 : Consumes nomU64 := consumes_nomUInt (2 ^ 64)

theorem consumes_nomU32 : Consumes nomU32 := consumes_nomUInt (2 ^ 32)

theorem consumes_module_status_line : Consumes module_status_line := by
  unfold module_status_line
  apply consumes_pseq consumes_moduleNameP; intro mn
  apply consumes_pseq consumes_spaceP; intro s1
  apply consumes_pseq consumes_nomU64; intro sz
  apply consumes_pseq consumes_spaceP; intro s2
  apply consumes_pseq consumes_nomU32; intro rf
  apply consumes_pseq consumes_spaceP; intro s3
  apply consumes_pseq consumes_dependentsP; intro deps
  apply consumes_pseq consumes_spaceP; intro s4
  apply consumes_pseq consumes_alpha1; intro st
  apply consumes_pseq consumes_spaceP; intro s5
  apply consumes_pseq consumes_alphanumeric1; intro loc
  apply consumes_pseq (consumes_pairP consumes_alpha0 consumes_notLineEnding); intro tr
  intro input rest b h
  simp only [] at h
  split_ifs at h <;> (injection h with e1 e2; rw [← e1])

theorem line_ending_strict :
    ∀ input rest v, line_ending input = .ok rest v → rest.length < input.length := by
  intro input rest v h
  simp only [line_ending] at h
  split at h
  · injection h with h1 h2
    rw [← h1]
    simp
  · injection h with h1 h2
    rw [← h1]
    simp only [List.length_cons]
    omega
  · cases h

theorem listing_line_strict :
    ∀ input rest km, listing_line input = .ok rest km → rest.length < input.length := by
  intro input rest km h
  simp only [listing_line, pseq] at h
  split at h
  · rename_i r1 a heq1
    split at h
    · rename_i r2 b heq2
      injection h with h1 h2
      rw [← h1]
      exact lt_of_lt_of_le (line_ending_strict r1 r2 b heq2)
        (consumes_module_status_line input r1 a heq1)
    · cases h
    · cases h
  · cases h
  · cases h

theorem many0F_no_err {α : Type} {p : StrP α}
    (hstrict : ∀ input rest a, p input = .ok rest a → rest.length < input.length) :
    ∀ fuel input, input.length < fuel → many0F p fuel input ≠ .err := by
  intro fuel
  induction fuel with
  | zero => intro input hlt; exact absurd hlt (Nat.not_lt_zero _)
  | succ fuel ih =>
    intro input hlt
    simp only [many0F]
    split
    · simp
    · simp
    · rename_i rest a heq
      have hr : rest.length < input.length := hstrict input rest a heq
      rw [if_pos hr]
      split
      · simp
      · rename_i heq2
        exact absurd heq2 (ih rest (by omega))
      · simp

theorem many0F_fuel_irrel {α : Type} {p : StrP α}
    (hstrict : ∀ input rest a, p input = .ok rest a → rest.length < input.length) :
    ∀ f1 f2 input, input.length < f1 → input.length < f2 →
      many0F p f1 input = many0F p f2 input := by
  intro f1
  induction f1 with
  | zero => intro f2 input h1 h2; exact absurd h1 (Nat.not_lt_zero _)
  | succ f1 ih =>
    intro f2 input h1 h2
    cases f2 with
    | zero => exact absurd h2 (Nat.not_lt_zero _)
    | succ f2 =>
      simp only [many0F]
      cases hpi : p input with
      | err => simp only [hpi]
      | panicked m => simp only [hpi]
      | ok rest a =>
        simp only [hpi]
        have hr := hstrict input rest a hpi
        rw [ih f2 rest (by omega) (by omega)]

/-- C10: `parse_module_listing` never signals a parse failure through its
return value.  The underlying `many0` expression never returns `Err` (so
the `unwrap` of src/live.rs line 91 never panics on a combinator error),
a first line that fails the grammar makes the whole call return an empty
record list with no error (that line and everything after it, including
an unterminated final line, is silently discarded), and each grammar-
matching line terminated by a line break contributes exactly one record
in order. -/
theorem parse_listing_behavior (data : List Char) :
    parse_module_listing_raw data ≠ .err ∧
      (listing_line data = .err → parse_module_listing data = .ok []) ∧
      (∀ rest km ms, listing_line data = .ok rest km →
        parse_module_listing rest = .ok ms →
        parse_module_listing data = .ok (km :: ms)) := by
  refine ⟨?_, ?_, ?_⟩
  · exact many0F_no_err listing_line_strict (data.length + 1) data (Nat.lt_succ_self _)
  · intro h
    simp only [parse_module_listing, parse_module_listing_raw, many0F, h]
  · intro rest km ms hl hp
    have hlt : rest.length < data.length := listing_line_strict data rest km hl
    obtain ⟨r', hraw⟩ : ∃ r', parse_module_listing_raw rest = .ok r' ms := by
      simp only [parse_module_listing] at hp
      cases hr : parse_module_listing_raw rest with
      | ok r mods =>
        rw [hr] at hp
        injection hp with h1
        exact ⟨r, by rw [h1]⟩
      | err => rw [hr] at hp; cases hp
      | panicked m => rw [hr] at hp; cases hp
    have hfuel : many0F listing_line data.length rest = parse_module_listing_raw rest :=
      many0F_fuel_irrel listing_line_strict data.length (rest.length + 1) rest hlt
        (Nat.lt_succ_self _)
    have hkey : many0F listing_line data.length rest = .ok r' ms := hfuel.trans hraw
    have hrawdata : parse_module_listing_raw data = .ok r' (km :: ms) := by
      simp only [parse_module_listing_raw, many0F, hl, if_pos hlt, hkey]
    simp only [parse_module_listing, hrawdata]

theorem parse_listing_behavior_witness :
    parse_module_listing ("fuse 176128 3 - Live 0x0\n:x".toList) =
      .ok [{ name := "fuse", size := 176128, refs := 3, dependents := none,
             state := .Live }] := by
  have htail : parse_module_listing (":x".toList) = .ok [] :=
    (parse_listing_behavior (":x".toList)).2.1 (by decide)
  exact (parse_listing_behavior ("fuse 176128 3 - Live 0x0\n:x".toList)).2.2
    (":x".toList)
    { name := "fuse", size := 176128, refs := 3, dependents := none, state := .Live }
    [] (by decide) htail
